import Mathlib

/-!
Verification development for the yorjik message-generation core.

The Generation Facade (`generate_markov_message`, src/utils/helpers.rs) is
embedded from the source.  The Markov chain itself (`utils::markov_chain::Chain`)
is declared in main.rs and called from helpers.rs but its module file is not in
the source tree, so its trainer and generator are modelled from the spec
(sections 4.1 and 4.2), as marked on each definition.
-/

namespace Yorjik

/-- Case-fold a string: lower-case every character (models Rust `to_lowercase`
on ASCII corpus tokens). -/
def lowerStr (s : String) : String :=
  String.mk (s.data.map Char.toLower)

/-- Split a character list on whitespace, accumulating the current token in
reverse; models Rust `split_whitespace` (empty tokens discarded). -/
def splitWs : List Char → List Char → List String
  | [], acc => if acc.isEmpty then [] else [String.mk acc.reverse]
  | c :: rest, acc =>
    if c.isWhitespace then
      if acc.isEmpty then splitWs rest [] else String.mk acc.reverse :: splitWs rest []
    else splitWs rest (c :: acc)

/-- Modelled from the spec: tokenization used by the missing
`utils/markov_chain.rs` — "split on whitespace into tokens, case-fold each
token" (spec section 4.1). -/
def tokenize (s : String) : List String :=
  (splitWs s.data []).map lowerStr

/-- Increment the count of `t` in a weighted association list, inserting it
with count 1 when absent. -/
def incr : List (String × Nat) → String → List (String × Nat)
  | [], t => [(t, 1)]
  | (u, n) :: rest, t => if u = t then (u, n + 1) :: rest else (u, n) :: incr rest t

/-- Association-list lookup of a context key in the transition table. -/
def lookupCtx : List (String × List (String × Nat)) → String → Option (List (String × Nat))
  | [], _ => none
  | (k, v) :: rest, a => if k = a then some v else lookupCtx rest a

/-- Count recorded for candidate `t` in a weighted candidate list (0 if absent). -/
def candCount : List (String × Nat) → String → Nat
  | [], _ => 0
  | (u, n) :: rest, t => if u = t then n else candCount rest t

/-- Record one observation of the transition `a → b` in the transition table. -/
def addTrans : List (String × List (String × Nat)) → String → String →
    List (String × List (String × Nat))
  | [], a, b => [(a, [(b, 1)])]
  | (k, cands) :: rest, a, b =>
    if k = a then (k, incr cands b) :: rest else (k, cands) :: addTrans rest a b

/-- Record every adjacent pair of a single message's token list in the
transition table (no pair spans two messages). -/
def addPairs : List (String × List (String × Nat)) → List String →
    List (String × List (String × Nat))
  | ts, a :: b :: rest => addPairs (addTrans ts a b) (b :: rest)
  | ts, _ => ts

/-- Modelled from the spec: the Transition Model and Start Set of the missing
`utils/markov_chain.rs` (spec section 3): a first-order mapping from context
token to weighted next-token candidates, plus the weighted set of tokens that
began some training message. -/
structure Chain where
  transitions : List (String × List (String × Nat))
  startSet : List (String × Nat)
deriving Repr, DecidableEq

/-- Modelled from the spec: `Chain::new` — an untrained, empty model. -/
def Chain.new : Chain := { transitions := [], startSet := [] }

/-- Modelled from the spec: training on one message (spec section 4.1): skip
empty token lists, record the first token in the Start Set, record every
adjacent pair as a transition. -/
def Chain.trainMessage (c : Chain) (msg : String) : Chain :=
  match tokenize msg with
  | [] => c
  | t0 :: rest =>
    { transitions := addPairs c.transitions (t0 :: rest),
      startSet := incr c.startSet t0 }

/-- Modelled from the spec: `Chain::train` — a single pass over the corpus,
each message trained independently. -/
def Chain.train (c : Chain) (msgs : List String) : Chain :=
  msgs.foldl Chain.trainMessage c

/-- Total weight of a candidate list. -/
def totalWeight (cands : List (String × Nat)) : Nat :=
  (cands.map Prod.snd).sum

/-- Roulette-wheel selection (spec glossary): walk the candidate list,
selecting the first candidate whose cumulative weight covers the draw point;
a non-empty list always yields its last candidate as a final fallback. -/
def roulette : List (String × Nat) → Nat → Option String
  | [], _ => none
  | [(t, _)], _ => some t
  | (t, w) :: c :: rest, d => if d < w then some t else roulette (c :: rest) (d - w)

/-- Modelled from the spec: weighted random pick — "draw uniformly over the
total weight, then select the first candidate whose cumulative weight covers
the draw point" (spec section 4.2); the raw draw is reduced modulo the total
weight. -/
def pickWeighted (cands : List (String × Nat)) (d : Nat) : Option String :=
  roulette cands (d % totalWeight cands)

/-- Modelled from the spec: choice of the first emitted token (spec section
4.2): a seed matching (case-insensitively) a context key or a Start Set entry
is used directly; an unknown or absent seed falls back to a weighted pick from
the Start Set. -/
def Chain.firstToken (c : Chain) (seed : Option String) (d : Nat) : Option String :=
  match seed with
  | some s =>
    let sl := lowerStr s
    if (lookupCtx c.transitions sl).isSome || c.startSet.any (fun p => p.1 == sl) then
      some sl
    else
      pickWeighted c.startSet d
  | none => pickWeighted c.startSet d

/-- The raw draw consumed by the next random selection (head of the draw
list, 0 when exhausted). -/
def firstDraw (draws : List Nat) : Nat := draws.headD 0

/-- Modelled from the spec: the generation loop (spec section 4.2): up to
`fuel` additional steps, stopping early at a dead end (context with no
candidates). One raw draw is consumed per step. -/
def Chain.nextSteps (c : Chain) : String → Nat → List Nat → List String
  | _, 0, _ => []
  | cur, fuel + 1, draws =>
    match lookupCtx c.transitions cur with
    | none => []
    | some cands =>
      match pickWeighted cands (firstDraw draws) with
      | none => []
      | some t => t :: c.nextSteps t fuel draws.tail

/-- Modelled from the spec: token sequence produced by `Chain::generate` —
first token, then at most `maxTokens - 1` further steps. -/
def Chain.generateTokens (c : Chain) (maxTokens : Nat) (seed : Option String)
    (draws : List Nat) : List String :=
  match c.firstToken seed (firstDraw draws) with
  | none => []
  | some t => t :: c.nextSteps t (maxTokens - 1) draws.tail

/-- Modelled from the spec: `Chain::generate` — the generated tokens joined by
single spaces (spec section 4.2). Randomness is passed explicitly as a list of
raw draws. -/
def Chain.generate (c : Chain) (maxTokens : Nat) (seed : Option String)
    (draws : List Nat) : String :=
  String.intercalate " " (c.generateTokens maxTokens seed draws)

/-- Count recorded in a transition table for the transition `a → b`
(0 when absent). -/
def tableCount (ts : List (String × List (String × Nat))) (a b : String) : Nat :=
  match lookupCtx ts a with
  | none => 0
  | some cands => candCount cands b

/-- Count recorded in a chain's Transition Model for the transition `a → b`. -/
def transCount (c : Chain) (a b : String) : Nat :=
  tableCount c.transitions a b

/-- Whether `a` is immediately followed by `b` somewhere in a token list. -/
def hasAdj : List String → String → String → Bool
  | x :: y :: rest, a, b => (x = a && y = b) || hasAdj (y :: rest) a b
  | _, _, _ => false

/-- Total outgoing weight recorded under context `k` (0 when the context is
absent). -/
def weightOf (ts : List (String × List (String × Nat))) (k : String) : Nat :=
  match lookupCtx ts k with
  | none => 0
  | some cands => totalWeight cands

/-- Number of positions in one token list where `k` occurs followed by some
further token. -/
def countCtx : List String → String → Nat
  | a :: b :: rest, k => (if a = k then 1 else 0) + countCtx (b :: rest) k
  | _, _ => 0

/-- Number of times, over a whole corpus, that context `k` was observed
followed by some token during training (messages tokenized independently). -/
def corpusCtxCount : List String → String → Nat
  | [], _ => 0
  | m :: ms, k => countCtx (tokenize m) k + corpusCtxCount ms k

/-- A small concrete trained-shape model used to instantiate hypotheses of
the general theorems. -/
def sampleChain : Chain :=
  { transitions := [("the", [("cat", 1)])], startSet := [("the", 1)] }

/-- The process-wide model cache (main.rs `MarkovChainGlobal`): a map from
channel id to its most recently trained chain, embedded as an association
list. -/
abbrev Cache : Type := List (Nat × Chain)

/-- HashMap `get` on the cache. -/
def cacheLookup : Cache → Nat → Option Chain
  | [], _ => none
  | (k, v) :: rest, ch => if k = ch then some v else cacheLookup rest ch

/-- HashMap `insert` on the cache: whole-entry replace, or append when the
key is new. -/
def cacheInsert : Cache → Nat → Chain → Cache
  | [], ch, c => [(ch, c)]
  | (k, v) :: rest, ch, c =>
    if k = ch then (k, c) :: rest else (k, v) :: cacheInsert rest ch c

/-- Rust `rng.gen_range(1..15)` (helpers.rs lines 27 and 69) applied to a raw
uniform draw: a value in `1..=14`. -/
def genRangeMax (d : Nat) : Nat := 1 + d % 14

/-- Observable outcome of one Facade call: the returned option, the cache
state after the call, and how many times the corpus fetch and the trainer
ran during the call. -/
structure FacadeResult where
  output : Option String
  cache : Cache
  fetchCount : Nat
  trainCount : Nat

/-- Embedding of `generate_markov_message` (helpers.rs lines 14-71).  The
external effects are explicit parameters: `fetchResult` is what one call to
`Database::get_messages_for_markov` would return, `lenDraw` the raw draw
behind `gen_range(1..15)`, and `genDraws` the raw draws consumed by the
generator.  Cache hit: generate from the cached chain, no fetch, no training.
Cache miss: fetch once; on error or a corpus below 500 messages return
`none`; otherwise train, insert the whole new entry, and generate. -/
def generate_markov_message (cache : Cache) (channelId : Nat)
    (customWord : Option String) (fetchResult : Except String (List String))
    (lenDraw : Nat) (genDraws : List Nat) : FacadeResult :=
  match cacheLookup cache channelId with
  | some chain =>
    { output := some (chain.generate (genRangeMax lenDraw) customWord genDraws),
      cache := cache, fetchCount := 0, trainCount := 0 }
  | none =>
    match fetchResult with
    | .error _ => { output := none, cache := cache, fetchCount := 1, trainCount := 0 }
    | .ok sentences =>
      if sentences.length < 500 then
        { output := none, cache := cache, fetchCount := 1, trainCount := 0 }
      else
        let chain := Chain.train Chain.new sentences
        { output := some (chain.generate (genRangeMax lenDraw) customWord genDraws),
          cache := cacheInsert cache channelId chain,
          fetchCount := 1, trainCount := 1 }

theorem cacheLookup_cacheInsert_self (cc : Cache) (ch : Nat) (c : Chain) :
    cacheLookup (cacheInsert cc ch c) ch = some c := by
  induction cc with
  | nil => simp [cacheInsert, cacheLookup]
  | cons p rest ih =>
    by_cases h : p.1 = ch
    · simp [cacheInsert, cacheLookup, h]
    · simp [cacheInsert, cacheLookup, h, ih]

example : tokenize "The  cat Sat" = ["the", "cat", "sat"] := by decide

example : Chain.train Chain.new ["a b"] =
    { transitions := [("a", [("b", 1)])], startSet := [("a", 1)] } := by decide

example :
    (Chain.train Chain.new ["the cat"]).generateTokens 3 none [0] = ["the", "cat"] := by
  decide

example :
    (Chain.train Chain.new ["the cat"]).generate 3 none [0] = "the cat" := by
  decide

/-- C1: on a cache miss with a successful corpus fetch, a corpus of fewer
than 500 messages yields `none`, and a corpus of 500 or more messages trains
the chain and yields a generated sentence; the boundary is exactly 500. -/
theorem C1_corpus_threshold (cache : Cache) (ch : Nat) (w : Option String)
    (s : List String) (d : Nat) (ds : List Nat)
    (h : cacheLookup cache ch = none) :
    (s.length < 500 →
      (generate_markov_message cache ch w (.ok s) d ds).output = none) ∧
    (500 ≤ s.length →
      (generate_markov_message cache ch w (.ok s) d ds).output =
        some ((Chain.train Chain.new s).generate (genRangeMax d) w ds) ∧
      (generate_markov_message cache ch w (.ok s) d ds).trainCount = 1) := by
  constructor
  · intro hlt
    simp [generate_markov_message, h, hlt]
  · intro hge
    have hlt : ¬ s.length < 500 := by omega
    simp [generate_markov_message, h, hlt]

/-- C1 witness: 499 replicated messages yield `none`; 500 yield a sentence. -/
theorem C1_corpus_threshold_witness :
    (generate_markov_message [] 1 none (.ok (List.replicate 499 "m")) 0 []).output = none ∧
    (generate_markov_message [] 1 none (.ok (List.replicate 500 "m")) 0 []).output =
      some ((Chain.train Chain.new (List.replicate 500 "m")).generate (genRangeMax 0) none []) := by
  constructor
  · exact (C1_corpus_threshold [] 1 none (List.replicate 499 "m") 0 [] rfl).1
      (by rw [List.length_replicate]; omega)
  · exact ((C1_corpus_threshold [] 1 none (List.replicate 500 "m") 0 [] rfl).2
      (by rw [List.length_replicate])).1

/-- C2: two consecutive Facade calls for the same channel, the first a cache
miss over a sufficient corpus: the first call fetches and trains exactly once,
the second call is a cache hit that neither fetches nor trains and still
produces a sentence, for any value the provider would have returned. -/
theorem C2_cache_reuse (cache : Cache) (ch : Nat) (w : Option String)
    (s : List String) (d : Nat) (ds : List Nat) (w2 : Option String)
    (f2 : Except String (List String)) (d2 : Nat) (ds2 : List Nat)
    (h : cacheLookup cache ch = none) (h5 : 500 ≤ s.length) :
    (generate_markov_message cache ch w (.ok s) d ds).fetchCount = 1 ∧
    (generate_markov_message cache ch w (.ok s) d ds).trainCount = 1 ∧
    (generate_markov_message (generate_markov_message cache ch w (.ok s) d ds).cache
      ch w2 f2 d2 ds2).fetchCount = 0 ∧
    (generate_markov_message (generate_markov_message cache ch w (.ok s) d ds).cache
      ch w2 f2 d2 ds2).trainCount = 0 ∧
    (generate_markov_message (generate_markov_message cache ch w (.ok s) d ds).cache
      ch w2 f2 d2 ds2).output =
      some ((Chain.train Chain.new s).generate (genRangeMax d2) w2 ds2) := by
  have hlt : ¬ s.length < 500 := by omega
  have hc1 : (generate_markov_message cache ch w (.ok s) d ds).cache =
      cacheInsert cache ch (Chain.train Chain.new s) := by
    simp [generate_markov_message, h, hlt]
  have hc2 : cacheLookup (generate_markov_message cache ch w (.ok s) d ds).cache ch =
      some (Chain.train Chain.new s) := by
    rw [hc1]; exact cacheLookup_cacheInsert_self cache ch _
  refine ⟨?_, ?_, ?_, ?_, ?_⟩ <;>
    simp [generate_markov_message, h, hlt, cacheLookup_cacheInsert_self]

/-- C2 witness: concrete first-miss-then-hit pair over a 500-message corpus. -/
theorem C2_cache_reuse_witness :
    (generate_markov_message [] 1 none (.ok (List.replicate 500 "m")) 0 []).trainCount = 1 ∧
    (generate_markov_message
      (generate_markov_message [] 1 none (.ok (List.replicate 500 "m")) 0 []).cache
      1 none (.ok []) 0 []).fetchCount = 0 ∧
    (generate_markov_message
      (generate_markov_message [] 1 none (.ok (List.replicate 500 "m")) 0 []).cache
      1 none (.ok []) 0 []).trainCount = 0 := by
  have h := C2_cache_reuse [] 1 none (List.replicate 500 "m") 0 [] none (.ok []) 0 []
    rfl (by rw [List.length_replicate])
  exact ⟨h.2.1, h.2.2.1, h.2.2.2.1⟩

/-- C3: on a cache miss whose corpus fetch errors, the Facade returns `none`,
leaves the cache untouched, performs the single fetch (no retry) and never
trains. -/
theorem C3_fetch_error (cache : Cache) (ch : Nat) (w : Option String)
    (e : String) (d : Nat) (ds : List Nat)
    (h : cacheLookup cache ch = none) :
    (generate_markov_message cache ch w (.error e) d ds).output = none ∧
    (generate_markov_message cache ch w (.error e) d ds).cache = cache ∧
    (generate_markov_message cache ch w (.error e) d ds).fetchCount = 1 ∧
    (generate_markov_message cache ch w (.error e) d ds).trainCount = 0 := by
  refine ⟨?_, ?_, ?_, ?_⟩ <;> simp [generate_markov_message, h]

/-- C3 witness: a concrete failed fetch on an empty cache. -/
theorem C3_fetch_error_witness :
    (generate_markov_message [] 1 none (.error "db down") 0 []).output = none ∧
    (generate_markov_message [] 1 none (.error "db down") 0 []).cache = [] := by
  have h := C3_fetch_error [] 1 none "db down" 0 [] rfl
  exact ⟨h.1, h.2.1⟩

/-- C5: the maximum length handed to the generator is `1 + draw % 14`, always
in `1..=14` and never 0 or 15; a uniform raw draw maps onto `1..14` one draw
residue per value; both the cache-hit path and the trained miss path pass
exactly this value to `Chain.generate`. -/
theorem C5_max_words_range (d : Nat) (cache : Cache) (ch : Nat) (chain : Chain)
    (w : Option String) (f : Except String (List String)) (ds : List Nat)
    (cache2 : Cache) (ch2 : Nat) (w2 : Option String) (s : List String)
    (d2 : Nat) (ds2 : List Nat)
    (hhit : cacheLookup cache ch = some chain)
    (hmiss : cacheLookup cache2 ch2 = none) (hs : 500 ≤ s.length) :
    1 ≤ genRangeMax d ∧ genRangeMax d ≤ 14 ∧
    (List.range 14).map genRangeMax = (List.range 14).map (fun r => r + 1) ∧
    (generate_markov_message cache ch w f d ds).output =
      some (chain.generate (genRangeMax d) w ds) ∧
    (generate_markov_message cache2 ch2 w2 (.ok s) d2 ds2).output =
      some ((Chain.train Chain.new s).generate (genRangeMax d2) w2 ds2) := by
  have hlt : ¬ s.length < 500 := by omega
  refine ⟨by unfold genRangeMax; omega, by unfold genRangeMax; omega, by decide, ?_, ?_⟩
  · simp [generate_markov_message, hhit]
  · simp [generate_markov_message, hmiss, hlt]

/-- C5 witness: bounds and uniform coverage at a concrete draw and concrete
hit/miss calls. -/
theorem C5_max_words_range_witness :
    1 ≤ genRangeMax 0 ∧ genRangeMax 0 ≤ 14 ∧
    (List.range 14).map genRangeMax = (List.range 14).map (fun r => r + 1) := by
  have h := C5_max_words_range 0 [(1, Chain.new)] 1 Chain.new none (.ok []) []
    [] 2 none (List.replicate 500 "m") 0 [] (by decide) rfl
    (by rw [List.length_replicate])
  exact ⟨h.1, h.2.1, h.2.2.1⟩

/-- C10: a call whose channel already has a cached chain returns
`some` generated sentence, never fetches the corpus, never re-checks the
500-message threshold (the fetch result parameter is arbitrary and unused),
and leaves the cache unchanged. -/
theorem C10_cached_channel_never_none (cache : Cache) (ch : Nat) (chain : Chain)
    (w : Option String) (f : Except String (List String)) (d : Nat) (ds : List Nat)
    (h : cacheLookup cache ch = some chain) :
    (generate_markov_message cache ch w f d ds).output =
      some (chain.generate (genRangeMax d) w ds) ∧
    (generate_markov_message cache ch w f d ds).cache = cache ∧
    (generate_markov_message cache ch w f d ds).fetchCount = 0 ∧
    (generate_markov_message cache ch w f d ds).trainCount = 0 := by
  refine ⟨?_, ?_, ?_, ?_⟩ <;> simp [generate_markov_message, h]

/-- C10 witness: a cached channel returns `some` even when the provider
would now report an empty (sub-threshold) corpus. -/
theorem C10_cached_channel_never_none_witness :
    (generate_markov_message [(1, Chain.new)] 1 none (.ok []) 0 []).output =
      some (Chain.new.generate (genRangeMax 0) none []) ∧
    (generate_markov_message [(1, Chain.new)] 1 none (.ok []) 0 []).fetchCount = 0 := by
  have h := C10_cached_channel_never_none [(1, Chain.new)] 1 Chain.new none (.ok []) 0 []
    (by decide)
  exact ⟨h.1, h.2.2.1⟩

theorem roulette_isSome : ∀ (l : List (String × Nat)) (d : Nat), l ≠ [] →
    ∃ t, roulette l d = some t := by
  intro l
  induction l with
  | nil => intro d h; exact absurd rfl h
  | cons x rest ih =>
    intro d _
    obtain ⟨t, w⟩ := x
    cases rest with
    | nil => exact ⟨t, rfl⟩
    | cons y rest2 =>
      by_cases hd : d < w
      · exact ⟨t, by simp [roulette, hd]⟩
      · obtain ⟨u, hu⟩ := ih (d - w) (by simp)
        exact ⟨u, by simp [roulette, hd, hu]⟩

theorem roulette_mem : ∀ (l : List (String × Nat)) (d : Nat) (t : String),
    roulette l d = some t → t ∈ l.map Prod.fst := by
  intro l
  induction l with
  | nil => intro d t h; simp [roulette] at h
  | cons x rest ih =>
    intro d t h
    obtain ⟨u, w⟩ := x
    cases rest with
    | nil =>
      simp [roulette] at h
      simp [h]
    | cons y rest2 =>
      by_cases hd : d < w
      · simp [roulette, hd] at h
        simp [h]
      · simp [roulette, hd] at h
        have := ih (d - w) t h
        simp at this ⊢
        tauto

theorem pickWeighted_isSome (l : List (String × Nat)) (d : Nat) (h : l ≠ []) :
    ∃ t, pickWeighted l d = some t :=
  roulette_isSome l (d % totalWeight l) h

theorem pickWeighted_mem (l : List (String × Nat)) (d : Nat) (t : String)
    (h : pickWeighted l d = some t) : t ∈ l.map Prod.fst :=
  roulette_mem l (d % totalWeight l) t h

theorem firstToken_isSome (c : Chain) (seed : Option String) (d : Nat)
    (h : c.startSet ≠ []) : ∃ t, c.firstToken seed d = some t := by
  cases seed with
  | none => exact pickWeighted_isSome c.startSet d h
  | some s =>
    by_cases hc : ((lookupCtx c.transitions (lowerStr s)).isSome ||
        c.startSet.any (fun p => p.1 == lowerStr s)) = true
    · exact ⟨lowerStr s, by simp [Chain.firstToken, hc]⟩
    · obtain ⟨t, ht⟩ := pickWeighted_isSome c.startSet d h
      refine ⟨t, ?_⟩
      have hc2 : ((lookupCtx c.transitions (lowerStr s)).isSome ||
          c.startSet.any (fun p => p.1 == lowerStr s)) = false := by
        simpa only [Bool.not_eq_true] using hc
      simp [Chain.firstToken, hc2, ht]

theorem firstToken_eq_none (c : Chain) (seed : Option String) (d : Nat)
    (h : c.firstToken seed d = none) : c.startSet = [] := by
  by_contra hne
  obtain ⟨t, ht⟩ := firstToken_isSome c seed d hne
  rw [ht] at h
  cases h

theorem nextSteps_length_le (c : Chain) : ∀ (fuel : Nat) (cur : String)
    (draws : List Nat), (c.nextSteps cur fuel draws).length ≤ fuel := by
  intro fuel
  induction fuel with
  | zero => intro cur draws; simp [Chain.nextSteps]
  | succ n ih =>
    intro cur draws
    unfold Chain.nextSteps
    cases hl : lookupCtx c.transitions cur with
    | none => simp
    | some cands =>
      cases hp : pickWeighted cands (firstDraw draws) with
      | none => simp [hp]
      | some t =>
        simp only [hp, List.length_cons]
        have := ih t draws.tail
        omega

/-- C4: the generated sentence is the space-join of the generated token list;
that list never exceeds `maxTokens` tokens (given the caller's constraint
`1 ≤ maxTokens`), has at least one token whenever the Start Set is non-empty,
and is empty only when the Start Set is empty. -/
theorem C4_length_bound (c : Chain) (maxTokens : Nat) (seed : Option String)
    (draws : List Nat) (h : 1 ≤ maxTokens) :
    c.generate maxTokens seed draws =
      String.intercalate " " (c.generateTokens maxTokens seed draws) ∧
    (c.generateTokens maxTokens seed draws).length ≤ maxTokens ∧
    (c.startSet ≠ [] → 1 ≤ (c.generateTokens maxTokens seed draws).length) ∧
    ((c.generateTokens maxTokens seed draws).length = 0 → c.startSet = []) := by
  refine ⟨rfl, ?_, ?_, ?_⟩
  · unfold Chain.generateTokens
    cases hf : c.firstToken seed (firstDraw draws) with
    | none => simp
    | some t =>
      simp only [List.length_cons]
      have := nextSteps_length_le c (maxTokens - 1) t draws.tail
      omega
  · intro hne
    obtain ⟨t, ht⟩ := firstToken_isSome c seed (firstDraw draws) hne
    unfold Chain.generateTokens
    simp [ht]
  · intro h0
    unfold Chain.generateTokens at h0
    cases hf : c.firstToken seed (firstDraw draws) with
    | none => exact firstToken_eq_none c seed _ hf
    | some t => rw [hf] at h0; simp at h0

/-- C4 witness: a two-token result within the bound on a concrete chain, and
the empty chain generating the empty token list. -/
theorem C4_length_bound_witness :
    (sampleChain.generateTokens 3 none [0]).length ≤ 3 ∧
    1 ≤ (sampleChain.generateTokens 3 none [0]).length ∧
    Chain.new.startSet = [] := by
  have h1 := C4_length_bound sampleChain 3 none [0] (by omega)
  have h2 := C4_length_bound Chain.new 1 none [] (by omega)
  exact ⟨h1.2.1, h1.2.2.1 (by decide), h2.2.2.2 (by decide)⟩

/-- C7: a seed matching neither a context key nor a Start Set entry never
fails: generation falls back to a weighted pick from the (non-empty) Start
Set, so the sentence begins with a Start Set token. -/
theorem C7_unknown_seed_fallback (c : Chain) (s : String) (maxTokens : Nat)
    (draws : List Nat)
    (h1 : c.startSet ≠ [])
    (h2 : lookupCtx c.transitions (lowerStr s) = none)
    (h3 : c.startSet.any (fun p => p.1 == lowerStr s) = false) :
    ∃ t, (c.generateTokens maxTokens (some s) draws).head? = some t ∧
      t ∈ c.startSet.map Prod.fst := by
  obtain ⟨t, ht⟩ := pickWeighted_isSome c.startSet (firstDraw draws) h1
  have hmem := pickWeighted_mem c.startSet (firstDraw draws) t ht
  have hft : c.firstToken (some s) (firstDraw draws) = some t := by
    simp [Chain.firstToken, h2, h3, ht]
  refine ⟨t, ?_, hmem⟩
  unfold Chain.generateTokens
  rw [hft]
  rfl

/-- C7 witness: the unknown seed "zzz" against a chain trained on "the cat"
yields a sentence starting with the Start Set token "the". -/
theorem C7_unknown_seed_fallback_witness :
    (sampleChain.generateTokens 5 (some "zzz") [0]).head? = some "the" ∧
    "the" ∈ sampleChain.startSet.map Prod.fst := by
  obtain ⟨t, ht, hm⟩ := C7_unknown_seed_fallback sampleChain "zzz" 5 [0]
    (by decide) (by decide) (by decide)
  have hcomp : (sampleChain.generateTokens 5 (some "zzz") [0]).head? = some "the" := by
    decide
  have hteq : t = "the" := by
    rw [ht] at hcomp
    exact Option.some.inj hcomp
  exact ⟨hcomp, hteq ▸ hm⟩

theorem tableCount_cons_ne (kk : String) (cands : List (String × Nat))
    (rest : List (String × List (String × Nat))) (a b : String) (h : kk ≠ a) :
    tableCount ((kk, cands) :: rest) a b = tableCount rest a b := by
  simp [tableCount, lookupCtx, h]

theorem tableCount_cons_eq (kk : String) (cands : List (String × Nat))
    (rest : List (String × List (String × Nat))) (b : String) :
    tableCount ((kk, cands) :: rest) kk b = candCount cands b := by
  simp [tableCount, lookupCtx]

theorem candCount_incr_ne (cands : List (String × Nat)) (y b : String) (h : y ≠ b) :
    candCount (incr cands y) b = candCount cands b := by
  induction cands with
  | nil => simp [incr, candCount, h]
  | cons x rest ih =>
    obtain ⟨u, n⟩ := x
    by_cases hu : u = y
    · subst hu
      simp [incr, candCount, h]
    · simp [incr, candCount, hu, ih]

theorem lookupCtx_addTrans_ne (ts : List (String × List (String × Nat)))
    (x y k : String) (h : x ≠ k) :
    lookupCtx (addTrans ts x y) k = lookupCtx ts k := by
  induction ts with
  | nil => simp [addTrans, lookupCtx, h]
  | cons p rest ih =>
    obtain ⟨kk, cands⟩ := p
    by_cases hk : kk = x
    · subst hk
      simp [addTrans, lookupCtx, h]
    · simp [addTrans, lookupCtx, hk, ih]

theorem tableCount_addTrans_ne_ctx (ts : List (String × List (String × Nat)))
    (x y a b : String) (h : x ≠ a) :
    tableCount (addTrans ts x y) a b = tableCount ts a b := by
  unfold tableCount
  rw [lookupCtx_addTrans_ne ts x y a h]

theorem tableCount_addTrans_ne_cand (ts : List (String × List (String × Nat)))
    (a y b : String) (h : y ≠ b) :
    tableCount (addTrans ts a y) a b = tableCount ts a b := by
  induction ts with
  | nil => simp [addTrans, tableCount, lookupCtx, candCount, h]
  | cons p rest ih =>
    obtain ⟨kk, cands⟩ := p
    by_cases hk : kk = a
    · subst hk
      simp [addTrans, tableCount, lookupCtx, candCount_incr_ne cands y b h]
    · simp only [addTrans, if_neg hk]
      rw [tableCount_cons_ne kk cands _ a b hk, tableCount_cons_ne kk cands rest a b hk]
      exact ih

theorem tableCount_addPairs (a b : String) : ∀ (l : List String)
    (ts : List (String × List (String × Nat))), hasAdj l a b = false →
    tableCount (addPairs ts l) a b = tableCount ts a b := by
  intro l
  induction l with
  | nil => intro ts _; rfl
  | cons x rest ih =>
    cases rest with
    | nil => intro ts _; rfl
    | cons y rest2 =>
      intro ts h
      simp only [hasAdj, Bool.or_eq_false_iff, Bool.and_eq_false_iff] at h
      obtain ⟨hxy, hrest⟩ := h
      have hstep : addPairs ts (x :: y :: rest2) =
          addPairs (addTrans ts x y) (y :: rest2) := rfl
      rw [hstep, ih (addTrans ts x y) hrest]
      by_cases hx : x = a
      · subst hx
        rcases hxy with hxa | hyb
        · simp at hxa
        · exact tableCount_addTrans_ne_cand ts x y b (by simpa using hyb)
      · exact tableCount_addTrans_ne_ctx ts x y a b hx

theorem transCount_trainMessage (c : Chain) (m : String) (a b : String)
    (h : hasAdj (tokenize m) a b = false) :
    transCount (c.trainMessage m) a b = transCount c a b := by
  unfold Chain.trainMessage
  cases htok : tokenize m with
  | nil => rfl
  | cons t0 rest =>
    rw [htok] at h
    simp only [transCount]
    exact tableCount_addPairs a b (t0 :: rest) c.transitions h

theorem transCount_train (msgs : List String) (a b : String) : ∀ c : Chain,
    (∀ m ∈ msgs, hasAdj (tokenize m) a b = false) →
    transCount (Chain.train c msgs) a b = transCount c a b := by
  induction msgs with
  | nil => intro c _; rfl
  | cons m ms ih =>
    intro c h
    have h1 := h m (by simp)
    have h2 : ∀ m2 ∈ ms, hasAdj (tokenize m2) a b = false :=
      fun m2 hm => h m2 (by simp [hm])
    have hstep : Chain.train c (m :: ms) = Chain.train (c.trainMessage m) ms := rfl
    rw [hstep, ih (c.trainMessage m) h2, transCount_trainMessage c m a b h1]

/-- C6: training never records a transition across message boundaries: a pair
`a → b` that is not adjacent inside any single tokenized message of the
corpus has count 0 in the trained Transition Model.  In particular training
on `["a b", "c d"]` yields no `b → c` and no `d → a` transition. -/
theorem C6_no_cross_message_leakage (msgs : List String) (a b : String)
    (h : ∀ m ∈ msgs, hasAdj (tokenize m) a b = false) :
    transCount (Chain.train Chain.new msgs) a b = 0 := by
  rw [transCount_train msgs a b Chain.new h]
  rfl

/-- C6 witness: the claim's own corpus `["a b", "c d"]` produces neither a
`b → c` nor a `d → a` transition. -/
theorem C6_no_cross_message_leakage_witness :
    transCount (Chain.train Chain.new ["a b", "c d"]) "b" "c" = 0 ∧
    transCount (Chain.train Chain.new ["a b", "c d"]) "d" "a" = 0 := by
  constructor
  · exact C6_no_cross_message_leakage ["a b", "c d"] "b" "c" (by decide)
  · exact C6_no_cross_message_leakage ["a b", "c d"] "d" "a" (by decide)

theorem weightOf_cons_ne (kk : String) (cands : List (String × Nat))
    (rest : List (String × List (String × Nat))) (k : String) (h : kk ≠ k) :
    weightOf ((kk, cands) :: rest) k = weightOf rest k := by
  simp [weightOf, lookupCtx, h]

theorem weightOf_cons_eq (kk : String) (cands : List (String × Nat))
    (rest : List (String × List (String × Nat))) :
    weightOf ((kk, cands) :: rest) kk = totalWeight cands := by
  simp [weightOf, lookupCtx]

theorem totalWeight_incr (cands : List (String × Nat)) (y : String) :
    totalWeight (incr cands y) = totalWeight cands + 1 := by
  induction cands with
  | nil => rfl
  | cons x rest ih =>
    obtain ⟨u, n⟩ := x
    by_cases hu : u = y
    · simp only [incr, if_pos hu]
      simp only [totalWeight, List.map_cons, List.sum_cons]
      omega
    · simp only [incr, if_neg hu]
      simp only [totalWeight, List.map_cons, List.sum_cons] at ih ⊢
      omega

theorem addTrans_cons_eq (kk : String) (cands : List (String × Nat))
    (rest : List (String × List (String × Nat))) (y : String) :
    addTrans ((kk, cands) :: rest) kk y = (kk, incr cands y) :: rest := by
  simp [addTrans]

theorem addTrans_cons_ne (kk : String) (cands : List (String × Nat))
    (rest : List (String × List (String × Nat))) (x y : String) (h : kk ≠ x) :
    addTrans ((kk, cands) :: rest) x y = (kk, cands) :: addTrans rest x y := by
  simp [addTrans, h]

theorem weightOf_addTrans (ts : List (String × List (String × Nat)))
    (x y k : String) :
    weightOf (addTrans ts x y) k = weightOf ts k + (if x = k then 1 else 0) := by
  induction ts with
  | nil =>
    by_cases hx : x = k
    · subst hx
      simp [addTrans, weightOf, lookupCtx, totalWeight]
    · simp [addTrans, weightOf, lookupCtx, hx]
  | cons p rest ih =>
    obtain ⟨kk, cands⟩ := p
    by_cases hk : kk = x
    · subst hk
      rw [addTrans_cons_eq]
      by_cases hxk : kk = k
      · subst hxk
        rw [weightOf_cons_eq, weightOf_cons_eq, totalWeight_incr, if_pos rfl]
      · rw [weightOf_cons_ne _ _ _ _ hxk, weightOf_cons_ne _ _ _ _ hxk, if_neg hxk]
        omega
    · rw [addTrans_cons_ne _ _ _ _ _ hk]
      by_cases hkk : kk = k
      · subst hkk
        rw [weightOf_cons_eq, weightOf_cons_eq]
        have hx2 : ¬ x = kk := fun he => hk he.symm
        rw [if_neg hx2]
        omega
      · rw [weightOf_cons_ne _ _ _ _ hkk, weightOf_cons_ne _ _ _ _ hkk]
        exact ih

theorem weightOf_addPairs (k : String) : ∀ (l : List String)
    (ts : List (String × List (String × Nat))),
    weightOf (addPairs ts l) k = weightOf ts k + countCtx l k := by
  intro l
  induction l with
  | nil => intro ts; simp [addPairs, countCtx]
  | cons x rest ih =>
    cases rest with
    | nil => intro ts; simp [addPairs, countCtx]
    | cons y rest2 =>
      intro ts
      have hstep : addPairs ts (x :: y :: rest2) =
          addPairs (addTrans ts x y) (y :: rest2) := rfl
      rw [hstep, ih (addTrans ts x y), weightOf_addTrans]
      by_cases hx : x = k
      · simp only [countCtx, if_pos hx]
        omega
      · simp only [countCtx, if_neg hx]
        omega

theorem weightOf_trainMessage (c : Chain) (m : String) (k : String) :
    weightOf (c.trainMessage m).transitions k =
      weightOf c.transitions k + countCtx (tokenize m) k := by
  unfold Chain.trainMessage
  cases htok : tokenize m with
  | nil => simp [countCtx]
  | cons t0 rest => simpa using weightOf_addPairs k (t0 :: rest) c.transitions

theorem weightOf_train (msgs : List String) (k : String) : ∀ c : Chain,
    weightOf (Chain.train c msgs).transitions k =
      weightOf c.transitions k + corpusCtxCount msgs k := by
  induction msgs with
  | nil => intro c; simp [corpusCtxCount, Chain.train]
  | cons m ms ih =>
    intro c
    have hstep : Chain.train c (m :: ms) = Chain.train (c.trainMessage m) ms := rfl
    rw [hstep, ih (c.trainMessage m), weightOf_trainMessage]
    simp only [corpusCtxCount]
    omega

/-- Every transition-table entry has a non-empty candidate list whose counts
are all positive. -/
def entriesOk (ts : List (String × List (String × Nat))) : Prop :=
  ∀ p ∈ ts, p.2 ≠ [] ∧ ∀ q ∈ p.2, 0 < q.2

theorem incr_ne_nil (cands : List (String × Nat)) (y : String) :
    incr cands y ≠ [] := by
  cases cands with
  | nil => simp [incr]
  | cons x rest =>
    obtain ⟨u, n⟩ := x
    by_cases h : u = y <;> simp [incr, h]

theorem incr_pos (y : String) : ∀ cands : List (String × Nat),
    (∀ q ∈ cands, 0 < q.2) → ∀ q ∈ incr cands y, 0 < q.2 := by
  intro cands
  induction cands with
  | nil =>
    intro _ q hq
    simp [incr] at hq
    simp [hq]
  | cons x rest ih =>
    obtain ⟨u, n⟩ := x
    intro h q hq
    by_cases hu : u = y
    · simp only [incr, if_pos hu] at hq
      rcases List.mem_cons.mp hq with hq | hq
      · simp [hq]
      · exact h q (List.mem_cons_of_mem _ hq)
    · simp only [incr, if_neg hu] at hq
      rcases List.mem_cons.mp hq with hq | hq
      · exact hq ▸ h (u, n) (by simp)
      · exact ih (fun r hr => h r (List.mem_cons_of_mem _ hr)) q hq

theorem entriesOk_addTrans (x y : String) : ∀ ts, entriesOk ts →
    entriesOk (addTrans ts x y) := by
  intro ts
  induction ts with
  | nil =>
    intro _ p hp
    simp [addTrans] at hp
    subst hp
    refine ⟨by simp, ?_⟩
    intro q hq
    simp at hq
    simp [hq]
  | cons hd rest ih =>
    intro h
    obtain ⟨kk, cands⟩ := hd
    have hhd := h (kk, cands) (by simp)
    have hrest : entriesOk rest := fun p hp => h p (List.mem_cons_of_mem _ hp)
    by_cases hk : kk = x
    · intro p hp
      simp only [addTrans, if_pos hk] at hp
      rcases List.mem_cons.mp hp with hp | hp
      · subst hp
        exact ⟨incr_ne_nil cands y, incr_pos y cands hhd.2⟩
      · exact hrest p hp
    · intro p hp
      simp only [addTrans, if_neg hk] at hp
      rcases List.mem_cons.mp hp with hp | hp
      · subst hp
        exact hhd
      · exact ih hrest p hp

theorem entriesOk_addPairs : ∀ (l : List String) (ts), entriesOk ts →
    entriesOk (addPairs ts l) := by
  intro l
  induction l with
  | nil => intro ts h; exact h
  | cons x rest ih =>
    cases rest with
    | nil => intro ts h; exact h
    | cons y rest2 =>
      intro ts h
      have hstep : addPairs ts (x :: y :: rest2) =
          addPairs (addTrans ts x y) (y :: rest2) := rfl
      rw [hstep]
      exact ih (addTrans ts x y) (entriesOk_addTrans x y ts h)

theorem entriesOk_trainMessage (c : Chain) (m : String)
    (h : entriesOk c.transitions) : entriesOk (c.trainMessage m).transitions := by
  unfold Chain.trainMessage
  cases htok : tokenize m with
  | nil => exact h
  | cons t0 rest => exact entriesOk_addPairs (t0 :: rest) c.transitions h

theorem entriesOk_train (msgs : List String) : ∀ c : Chain,
    entriesOk c.transitions → entriesOk (Chain.train c msgs).transitions := by
  induction msgs with
  | nil => intro c h; exact h
  | cons m ms ih =>
    intro c h
    have hstep : Chain.train c (m :: ms) = Chain.train (c.trainMessage m) ms := rfl
    rw [hstep]
    exact ih (c.trainMessage m) (entriesOk_trainMessage c m h)

/-- C8: invariants of every trained Transition Model: each context key maps
to a non-empty candidate set with positive counts, and the total weight under
each context equals the number of times that context was observed followed by
some token during training. -/
theorem C8_model_invariants (msgs : List String) :
    (∀ p ∈ (Chain.train Chain.new msgs).transitions,
      p.2 ≠ [] ∧ ∀ q ∈ p.2, 0 < q.2) ∧
    (∀ k, weightOf (Chain.train Chain.new msgs).transitions k =
      corpusCtxCount msgs k) := by
  constructor
  · exact entriesOk_train msgs Chain.new (by intro p hp; simp [Chain.new] at hp)
  · intro k
    have h := weightOf_train msgs k Chain.new
    simpa [Chain.new, weightOf, lookupCtx] using h

/-- C8 witness: concrete invariants on the model trained from
`["a b", "a c"]`. -/
theorem C8_model_invariants_witness :
    [("b", 1), ("c", 1)] ≠ ([] : List (String × Nat)) ∧
    (0 : Nat) < 1 ∧
    weightOf (Chain.train Chain.new ["a b", "a c"]).transitions "a" =
      corpusCtxCount ["a b", "a c"] "a" := by
  have h := C8_model_invariants ["a b", "a c"]
  have hp := h.1 ("a", [("b", 1), ("c", 1)]) (by decide)
  exact ⟨hp.1, hp.2 ("b", 1) (by decide), h.2 "a"⟩

end Yorjik
